import Mathlib

/-!
Verification development for the pandas-text-comparer repository.

The repository contains two revisions of `comparer.py` (the package-dir
revision `pandas_text_comparer` and the older `pandas-text-comparer`
revision).  Both expose a `TextComparer` whose core is:

* `_compare_strings`, which delegates to `difflib.SequenceMatcher`
  (`autojunk=False`) and returns the opcode list and the similarity
  ratio (the newer revision additionally rounds the ratio to two
  decimal digits with Python `round`, which rounds half to even);
* `_highlight_changes`, which splices HTML span markers into the two
  texts, walking the opcodes in reverse order;
* the `run` / `result` one-shot lifecycle and the `get_html`
  presentation pipeline (projection merge, optional ratio sort, row
  limiting, rendering).

Strings are modelled through their character lists, Python floats by
exact rationals, and fallible operations by `Except`.  The difflib
pieces are modelled from the documented contract of
`difflib.SequenceMatcher` with `autojunk=False` and no junk predicate:
`find_longest_match` returns a longest matching block, preferring
blocks that start earliest in `a`, then earliest in `b`;
`get_matching_blocks` recursively decomposes around the longest match
and merges adjacent blocks; `ratio` is `2 * M / T`.
-/

namespace TextComparer

/-- Opcode tags produced by `difflib.SequenceMatcher.get_opcodes`. -/
inductive DiffTag where
  | replace
  | delete
  | insert
  | equal
deriving DecidableEq, Repr

/-- An opcode `(tag, a1, a2, b1, b2)` as in `comparer.py`'s `OpCode` alias. -/
abbrev OpCode := DiffTag × Nat × Nat × Nat × Nat

/-- Length of the longest common prefix of two character lists. -/
def commonPrefixLen : List Char → List Char → Nat
  | c :: cs, d :: ds => if c = d then commonPrefixLen cs ds + 1 else 0
  | _, _ => 0

/-- Length of the longest matching block that starts at `a`-position `i` and
`b`-position `j`, clipped to the search window ends `ahi` and `bhi`. -/
def extLen (a b : List Char) (ahi bhi i j : Nat) : Nat :=
  commonPrefixLen ((a.drop i).take (ahi - i)) ((b.drop j).take (bhi - j))

/-- All candidate block start positions inside the search window, in
lexicographic order (ascending `i`, then ascending `j`). -/
def matchCands (alo ahi blo bhi : Nat) : List (Nat × Nat) :=
  (List.range' alo (ahi - alo)).flatMap fun i =>
    (List.range' blo (bhi - blo)).map fun j => (i, j)

/-- Maximum of a list of naturals (`foldl max 0`). -/
def listMax (l : List Nat) : Nat := l.foldl max 0

/-- Length of the longest matching block inside the search window. -/
def bestMatchLen (a b : List Char) (alo ahi blo bhi : Nat) : Nat :=
  listMax ((matchCands alo ahi blo bhi).map fun ij => extLen a b ahi bhi ij.1 ij.2)

/-- Models `difflib.SequenceMatcher.find_longest_match` with `autojunk=False`
and no junk predicate: among the matching blocks inside the window it returns
a longest one; ties are broken by the earliest start in `a`, then the earliest
start in `b` (the documented contract; the candidate list is in that
lexicographic order, so `find?` picks exactly that block).  With no match it
returns `(alo, blo, 0)`. -/
def find_longest_match (a b : List Char) (alo ahi blo bhi : Nat) :
    Nat × Nat × Nat :=
  match (matchCands alo ahi blo bhi).find?
      (fun ij => extLen a b ahi bhi ij.1 ij.2 == bestMatchLen a b alo ahi blo bhi) with
  | some ij => (ij.1, ij.2, bestMatchLen a b alo ahi blo bhi)
  | none => (alo, blo, 0)

/-- Recursive decomposition behind `get_matching_blocks`: find the longest
match, recurse on the region before it and the region after it.  A fuel
argument replaces the termination argument; the top-level caller passes more
fuel than the recursion can consume. -/
def matchingBlocksAux (a b : List Char) :
    Nat → Nat → Nat → Nat → Nat → List (Nat × Nat × Nat)
  | 0, _, _, _, _ => []
  | fuel + 1, alo, ahi, blo, bhi =>
    let t := find_longest_match a b alo ahi blo bhi
    if t.2.2 = 0 then []
    else
      matchingBlocksAux a b fuel alo t.1 blo t.2.1 ++ [t] ++
        matchingBlocksAux a b fuel (t.1 + t.2.2) ahi (t.2.1 + t.2.2) bhi

/-- The adjacent-block merging pass of `get_matching_blocks` (difflib's
`non_adjacent` loop): a block that starts exactly where the previous one ends
on both sides is fused into it. -/
def mergeAdjAux : Nat × Nat × Nat → List (Nat × Nat × Nat) → List (Nat × Nat × Nat)
  | t, [] => if t.2.2 ≠ 0 then [t] else []
  | t, u :: rest =>
    if t.1 + t.2.2 = u.1 ∧ t.2.1 + t.2.2 = u.2.1 then
      mergeAdjAux (t.1, t.2.1, t.2.2 + u.2.2) rest
    else
      (if t.2.2 ≠ 0 then [t] else []) ++ mergeAdjAux u rest

/-- Models `difflib.SequenceMatcher.get_matching_blocks`: the recursive
decomposition, the adjacent-merge pass, and the `(len(a), len(b), 0)`
terminator. -/
def getMatchingBlocks (a b : List Char) : List (Nat × Nat × Nat) :=
  mergeAdjAux (0, 0, 0)
      (matchingBlocksAux a b (a.length + b.length + 1) 0 a.length 0 b.length) ++
    [(a.length, b.length, 0)]

/-- Sum of the block sizes of a matching-block list. -/
def blocksSize : List (Nat × Nat × Nat) → Nat
  | [] => 0
  | t :: rest => t.2.2 + blocksSize rest

/-- Models `difflib.SequenceMatcher.ratio`: `2 * M / (len(a) + len(b))`, and
`1.0` when both sequences are empty. -/
def ratioOf (a b : List Char) : ℚ :=
  if a.length + b.length = 0 then 1
  else 2 * (blocksSize (getMatchingBlocks a b) : ℚ) / ((a.length : ℚ) + (b.length : ℚ))

/-- Round half to even to the nearest integer, as Python `round` does. -/
def roundHalfEven (q : ℚ) : ℤ :=
  let f := ⌊q⌋
  let r := q - (f : ℚ)
  if r < 1 / 2 then f
  else if 1 / 2 < r then f + 1
  else if f % 2 = 0 then f else f + 1

/-- Python `round(x, 2)` on an exact rational. -/
def round2 (q : ℚ) : ℚ := (roundHalfEven (100 * q) : ℚ) / 100

/-- Models `difflib.SequenceMatcher.get_opcodes`: walk the matching blocks,
emitting a gap opcode (`replace` / `delete` / `insert`) before each block and
an `equal` opcode for each nonempty block. -/
def opcodesFromBlocks : Nat → Nat → List (Nat × Nat × Nat) → List OpCode
  | _, _, [] => []
  | i, j, t :: rest =>
    let gap : List OpCode :=
      if i < t.1 ∧ j < t.2.1 then [(DiffTag.replace, i, t.1, j, t.2.1)]
      else if i < t.1 then [(DiffTag.delete, i, t.1, j, t.2.1)]
      else if j < t.2.1 then [(DiffTag.insert, i, t.1, j, t.2.1)]
      else []
    let eqOp : List OpCode :=
      if t.2.2 ≠ 0 then
        [(DiffTag.equal, t.1, t.1 + t.2.2, t.2.1, t.2.1 + t.2.2)]
      else []
    gap ++ eqOp ++ opcodesFromBlocks (t.1 + t.2.2) (t.2.1 + t.2.2) rest

/-- Opcode list of the general (non-fast-path) comparison. -/
def getOpcodes (a b : List Char) : List OpCode :=
  opcodesFromBlocks 0 0 (getMatchingBlocks a b)

/-- Embeds `TextComparer._compare_strings` of the `pandas_text_comparer`
revision: identical texts short-circuit to `([], 1.0)`; otherwise the
SequenceMatcher opcodes are returned together with the ratio rounded to two
decimals. -/
def compare_strings (a b : String) : List OpCode × ℚ :=
  if a = b then ([], 1)
  else (getOpcodes a.data b.data, round2 (ratioOf a.data b.data))

/-- Embeds `TextComparer._compare_strings` of the older `pandas-text-comparer`
revision, which does not round the ratio. -/
def compare_strings_h (a b : String) : List OpCode × ℚ :=
  if a = b then ([], 1)
  else (getOpcodes a.data b.data, ratioOf a.data b.data)

/-! ## Highlight insertion (`TextComparer._highlight_changes`) -/

/-- The open tag inserted for a `replace` opcode. -/
def openChg : String := "<span class=\x27chg\x27>"

/-- The open tag inserted for a `delete` opcode. -/
def openSub : String := "<span class=\x27sub\x27>"

/-- The open tag inserted for an `insert` opcode. -/
def openAdd : String := "<span class=\x27add\x27>"

/-- The close tag inserted after every highlighted span. -/
def closeSpan : String := "</span>"

/-- The `difftag_styles` dictionary of `_highlight_changes`: `equal` has no
entry, so `.get` yields `None` for it. -/
def difftag_styles : DiffTag → Option String
  | DiffTag.replace => some openChg
  | DiffTag.delete => some openSub
  | DiffTag.insert => some openAdd
  | DiffTag.equal => none

/-- A text as Python's `list(text)` produces it: one single-character string
per character. -/
def charsOf (s : String) : List String :=
  s.data.map String.singleton

/-- Python `"".join`: concatenation of a list of strings. -/
def strJoin (l : List String) : String :=
  String.mk (l.map String.data).flatten

/-- One opcode's pair of insertions into one of the two piece lists, exactly
as in the loop body: the close tag is spliced in at the high offset first,
then the open tag at the low offset. -/
def insert2 (l : List String) (lo hi : Nat) (tag : String) : List String :=
  (l.take hi ++ [closeSpan] ++ l.drop hi).take lo ++ [tag] ++
    (l.take hi ++ [closeSpan] ++ l.drop hi).drop lo

/-- The body of the `for opcode in reversed(opcodes)` loop: opcodes whose tag
has no style (`equal`) are skipped, all others wrap both texts. -/
def highlightStep (p : List String × List String) : OpCode → List String × List String
  | (tag, a1, a2, b1, b2) =>
    match difftag_styles tag with
    | none => p
    | some s => (insert2 p.1 a1 a2 s, insert2 p.2 b1 b2 s)

/-- The two piece lists built by `_highlight_changes` before the final join:
the opcodes are processed in reverse order of occurrence. -/
def highlightPieces (a b : String) (ops : List OpCode) : List String × List String :=
  ops.reverse.foldl highlightStep (charsOf a, charsOf b)

/-- Embeds `TextComparer._highlight_changes` (identical in both revisions). -/
def highlight_changes (a b : String) (ops : List OpCode) : String × String :=
  ((highlightPieces a b ops).1 |> strJoin, (highlightPieces a b ops).2 |> strJoin)

/-- Tests whether a piece is one of the three inserted open tags. -/
def isOpenTag (s : String) : Bool :=
  s == openChg || s == openSub || s == openAdd

/-- Tests whether a piece is any inserted markup string. -/
def isTag (s : String) : Bool :=
  isOpenTag s || s == closeSpan

/-- Removes every inserted markup string from a piece list. -/
def stripTags (l : List String) : List String :=
  l.filter fun s => !isTag s

/-- Substring test on character lists used to express "the text carries
markup". -/
def isPrefList : List Char → List Char → Bool
  | [], _ => true
  | _ :: _, [] => false
  | c :: cs, d :: ds => c == d && isPrefList cs ds

/-- Substring occurrence test on character lists. -/
def containsSub (p : List Char) : List Char → Bool
  | [] => isPrefList p []
  | c :: rest => isPrefList p (c :: rest) || containsSub p rest

/-- A string carries highlight markup when one of the inserted tags occurs in
it as a substring. -/
def hasMarkup (s : String) : Bool :=
  containsSub openChg.data s.data || containsSub openSub.data s.data ||
    containsSub openAdd.data s.data || containsSub closeSpan.data s.data

/-- Scan a piece list tracking whether we are inside an open span.  `none`
means the markup is unbalanced or two spans interleave; `some st` is the
final state.  Balanced, properly nested (never interleaved) output is a scan
from `false` back to `false`. -/
def spanScan : List String → Bool → Option Bool
  | [], st => some st
  | s :: rest, st =>
    if isOpenTag s then
      if st then none else spanScan rest true
    else if s == closeSpan then
      if st then spanScan rest false else none
    else spanScan rest st

/-- Balanced and properly nested markup: every open tag is closed, no close
tag appears outside a span, and spans never nest or interleave. -/
def wellNested (l : List String) : Prop :=
  spanScan l false = some false

/-- Opcode lists as alignment produces them: contiguous spans starting at
`(p, q)` and covering both sequences through `(n, m)`, each with
non-negative extent. -/
def chainOps : List OpCode → Nat → Nat → Nat → Nat → Bool
  | [], p, q, n, m => p == n && q == m
  | (_, a1, a2, b1, b2) :: rest, p, q, n, m =>
    p == a1 && decide (a1 ≤ a2) && q == b1 && decide (b1 ≤ b2) &&
      chainOps rest a2 b2 n m

/-- A valid opcode list for the pair of texts `a`, `b` (the §3 invariant of
the design: contiguous, non-overlapping, covering both texts exactly once). -/
def validOpcodes (a b : String) (ops : List OpCode) : Prop :=
  chainOps ops 0 0 a.data.length b.data.length = true

/-! ## Per-row processing and the one-shot `run` lifecycle -/

/-- Embeds `TextComparer._process_row` of the `pandas_text_comparer`
revision: highlight exactly when the ratio reaches the threshold
(`ratio >= self._min_ratio`), otherwise pass the texts through unmodified. -/
def process_row (minRatio : ℚ) (ta tb : String) : ℚ × String × String :=
  if minRatio ≤ (compare_strings ta tb).2 then
    ((compare_strings ta tb).2, highlight_changes ta tb (compare_strings ta tb).1)
  else
    ((compare_strings ta tb).2, ta, tb)

/-- Embeds `_process_rows`: the per-row map over the frame (the
pandarallel/tqdm capability probe only changes how the map is executed, not
its result). -/
def process_rows (minRatio : ℚ) (rows : List (String × String)) :
    List (ℚ × String × String) :=
  rows.map fun r => process_row minRatio r.1 r.2

/-- Same as `process_row` but with the unrounded ratio of the older
revision. -/
def process_row_h (minRatio : ℚ) (ta tb : String) : ℚ × String × String :=
  if minRatio ≤ (compare_strings_h ta tb).2 then
    ((compare_strings_h ta tb).2,
      highlight_changes ta tb (compare_strings_h ta tb).1)
  else
    ((compare_strings_h ta tb).2, ta, tb)

/-- Row map of the older revision. -/
def process_rows_h (minRatio : ℚ) (rows : List (String × String)) :
    List (ℚ × String × String) :=
  rows.map fun r => process_row_h minRatio r.1 r.2

/-- Mutable state of a `TextComparer` of the `pandas_text_comparer`
revision: the retained two-column frame (released after a run) and the
cached result. -/
structure ComparerStateU where
  df : Option (List (String × String))
  minRatio : ℚ
  result : Option (List (ℚ × String × String))
deriving DecidableEq

/-- Embeds `TextComparer.run` of the `pandas_text_comparer` revision: a
second call returns immediately (`if self.result is not None: return`),
otherwise the result is computed and the source frame released. -/
def runU (s : ComparerStateU) : ComparerStateU :=
  if s.result.isSome then s
  else
    { df := none, minRatio := s.minRatio,
      result := some (process_rows s.minRatio (s.df.getD [])) }

/-- Mutable state of a `TextComparer` of the older `pandas-text-comparer`
revision.  Its `_process_row` additionally assembles a per-row HTML string
from all frame columns; that presentation glue is outside every claim, so
the result keeps the computed ratio and the two (possibly highlighted)
texts. -/
structure ComparerStateH where
  df : Option (List (String × String))
  minRatio : ℚ
  result : Option (List (ℚ × String × String))
deriving DecidableEq

/-- Embeds `TextComparer.run` of the older revision: it raises
`ValueError("The comparer has already been run")` when the source frame has
already been released (`if self._df is None`), and otherwise computes the
result and releases the frame. -/
def runH (s : ComparerStateH) : Except String ComparerStateH :=
  if s.df = none then
    Except.error "The comparer has already been run"
  else
    Except.ok
      { df := none, minRatio := s.minRatio,
        result := some (process_rows_h s.minRatio (s.df.getD [])) }

/-! ## Presentation (`TextComparer.get_html` and helpers)

The tabular collaborator (pandas) is modelled narrowly: a projection frame
is a column list plus keyed rows of column/value cells, the comparison
result is a keyed list of `(ratio, text_a, text_b)` records.
`pd.merge(df, result, left_index=True, right_index=True)` is an inner join
keeping the left frame's row order; `.drop(columns=…, errors="ignore")`
silently filters columns; `.loc[list]` raises `KeyError` when a label is
missing.  Decimal formatting of the ratio cell is abstracted by `toString`
on the exact rational; no claim depends on the rendered digits.  The ratio
sort is modelled with a stable merge sort, but note that
`DataFrame.sort_values` defaults to `kind="quicksort"`, whose tie order
pandas does not specify — nothing below relies on the model's stability. -/

/-- Sort direction accepted by `get_html` (`SortOrder` in the source). -/
inductive SortOrder where
  | asc
  | desc
deriving DecidableEq, Repr

/-- A caller-supplied projection frame. -/
structure Frame where
  cols : List String
  rows : List (Nat × List (String × String))
deriving DecidableEq

/-- One row of the comparison result (`ComparerResult`): row key, ratio and
the two stored texts. -/
structure ResultRow where
  key : Nat
  ratio : ℚ
  textA : String
  textB : String
deriving DecidableEq

/-- Post-run view of a comparer, as `get_html` consumes it: the two text
column names (`self._result_columns[1:]`) and the result records. -/
structure ComparerView where
  colA : String
  colB : String
  result : List ResultRow
deriving DecidableEq

/-- Models `df.drop(columns=cs, errors="ignore")`: the named columns are
removed when present and silently ignored when absent. -/
def dropColumns (f : Frame) (cs : List String) : Frame :=
  { cols := f.cols.filter fun c => !cs.contains c,
    rows := f.rows.map fun kr => (kr.1, kr.2.filter fun cv => !cs.contains cv.1) }

/-- A row ready for rendering: key, projection cells, result record. -/
abbrev RenderRow := Nat × List (String × String) × ResultRow

/-- Models `pd.merge(df, html_df, left_index=True, right_index=True)` (inner
join on the row key, left row order, assuming unique keys in the result). -/
def mergeProj (p : Frame) (res : List ResultRow) : List RenderRow :=
  p.rows.filterMap fun kr =>
    (res.find? fun r => r.key == kr.1).map fun r => (kr.1, kr.2, r)

/-- Models `sort_values(by="ratio", ascending=…)` with a stable merge sort
(see the section comment: pandas' default quicksort does not promise a tie
order). -/
def sortByRatio (rows : List RenderRow) (ascending : Bool) : List RenderRow :=
  rows.mergeSort fun x y =>
    if ascending then decide (x.2.2.ratio ≤ y.2.2.ratio)
    else decide (y.2.2.ratio ≤ x.2.2.ratio)

/-- Ratio cell text (decimal formatting abstracted). -/
def ratioText (q : ℚ) : String := toString q

/-- One data cell, as the f-string `"<td> {text} </td>"` produces it. -/
def tdCell (s : String) : String := "<td> " ++ s ++ " </td>"

/-- One header cell, as the f-string `"<th> {col} </th>"` produces it. -/
def thCell (s : String) : String := "<th> " ++ s ++ " </th>"

/-- Embeds `TextComparer._row_to_html` applied to an `itertuples` row: the
optional index, then the projection cells, then ratio and the two texts
(the merged frame's column order). -/
def rowToHtml (showIndex : Bool) (r : RenderRow) : String :=
  "<tr>" ++
    strJoin
      (((if showIndex then [toString r.1] else []) ++ r.2.1.map Prod.snd ++
          [ratioText r.2.2.ratio, r.2.2.textA, r.2.2.textB]).map tdCell) ++
    "</tr>"

/-- Embeds `TextComparer._get_rows_html` of the `pandas_text_comparer`
revision: optional projection merge, optional ratio sort, `islice` row
limiting, and row rendering. -/
def getRowsHtml (v : ComparerView) (proj : Option Frame) (showIndex : Bool)
    (maxRows : Option Nat) (sortArg : Option SortOrder) : String :=
  let rows0 : List RenderRow :=
    match proj with
    | some p => mergeProj p v.result
    | none => v.result.map fun r => (r.key, [], r)
  let sorted :=
    match sortArg with
    | some SortOrder.asc => sortByRatio rows0 true
    | some SortOrder.desc => sortByRatio rows0 false
    | none => rows0
  let limited :=
    match maxRows with
    | none => sorted
    | some m => sorted.take m
  strJoin (limited.map (rowToHtml showIndex))

/-- The inline CSS block (`TextComparer.css_styles`). -/
def cssStyles : String :=
  "\n    .add \x7bbackground-color:#aaffaa\x7d\n    .chg \x7bbackground-color:#ffff77\x7d\n    .sub \x7bbackground-color:#ffaaaa\x7d\n    "

/-- Embeds `TextComparer._get_full_html`: header row from the optional index
column, the projection columns and the result columns, wrapped with the
style element in the f-string template. -/
def getFullHtml (v : ComparerView) (proj : Option Frame) (rowsHtml : String)
    (showIndex : Bool) : String :=
  let columns :=
    (if showIndex then ["#"] else []) ++
      (match proj with
        | some p => p.cols
        | none => []) ++
      ["ratio", v.colA, v.colB]
  let tableHead := "<thead>" ++ strJoin (columns.map thCell) ++ "</thead>"
  let tableBody := "<tbody>" ++ rowsHtml ++ "</tbody>"
  let styleElement := "<style type=\x27text/css\x27>" ++ cssStyles ++ "</style>"
  "\n        " ++ styleElement ++ "\n        <table>\n            " ++
    tableHead ++ "\n            " ++ tableBody ++ "\n        </table>\n        "

/-- Embeds `TextComparer.get_html` of the `pandas_text_comparer` revision:
a supplied projection first has the two original text columns dropped
(silently, `errors="ignore"`), and the result is rendered from the merge
with the comparison result. -/
def get_html (v : ComparerView) (proj : Option Frame) (showIndex : Bool)
    (maxRows : Option Nat) (sortArg : Option SortOrder) : String :=
  getFullHtml v (proj.map fun p => dropColumns p [v.colA, v.colB])
    (getRowsHtml v (proj.map fun p => dropColumns p [v.colA, v.colB])
      showIndex maxRows sortArg)
    showIndex

/-- Models `html_df.loc[keys]` as used by `_get_rows_html` of the older
revision: row selection by a key list, raising `KeyError` when any key is
absent (pandas raises on missing labels). -/
def locSelect {α : Type} (keys : List Nat) (rows : List (Nat × α)) :
    Except String (List (Nat × α)) :=
  if keys.all fun k => ((rows.find? fun r => r.1 == k).isSome : Bool) then
    Except.ok (keys.filterMap fun k => (rows.find? fun r => r.1 == k).map fun r => (k, r.2))
  else Except.error "KeyError"

/-! ## Derived definitions used by the statements and proofs -/

/-- Two character lists share at least one character. -/
def sharesChar (a b : List Char) : Prop := ∃ c ∈ a, c ∈ b

/-- Length of the longest matching block between two texts (the `k` of
`find_longest_match` over the full ranges). -/
def maxMatchLen (a b : String) : Nat :=
  (find_longest_match a.data b.data 0 a.data.length 0 b.data.length).2.2

/-- One side of an opcode as the highlight loop consumes it: the optional
style string and the low/high offsets into that side's text. -/
abbrev GOp := Option String × Nat × Nat

/-- The `a`-side view of an opcode. -/
def projA (op : OpCode) : GOp := (difftag_styles op.1, op.2.1, op.2.2.1)

/-- The `b`-side view of an opcode. -/
def projB (op : OpCode) : GOp := (difftag_styles op.1, op.2.2.2.1, op.2.2.2.2)

/-- One-sided insertion step. -/
def gStep (l : List String) : GOp → List String
  | (none, _, _) => l
  | (some s, lo, hi) => insert2 l lo hi s

/-- The `a`-side of `highlightStep`. -/
def stepA (l : List String) (op : OpCode) : List String := gStep l (projA op)

/-- The `b`-side of `highlightStep`. -/
def stepB (l : List String) (op : OpCode) : List String := gStep l (projB op)

/-- One-sided highlight fold: the reverse-order loop over the opcodes,
expressed as a right fold. -/
def gFold (gops : List GOp) (l : List String) : List String :=
  gops.foldr (fun g acc => gStep acc g) l

/-- Contiguity of one-sided spans from `p` through `n`. -/
def gChain : List GOp → Nat → Nat → Bool
  | [], p, n => p == n
  | (_, lo, hi) :: rest, p, n =>
    p == lo && decide (lo ≤ hi) && gChain rest hi n

/-- The rendered output of a single one-sided span: the slice untouched for
a styleless (`equal`) op, or wrapped in the open/close tag pair. -/
def renderSeg (chars : List String) : GOp → List String
  | (none, lo, hi) => (chars.take hi).drop lo
  | (some s, lo, hi) => s :: ((chars.take hi).drop lo ++ [closeSpan])

/-- Concatenation of the rendered spans. -/
def flatSegs (chars : List String) : List GOp → List String
  | [] => []
  | g :: rest => renderSeg chars g ++ flatSegs chars rest

/-! ## Concrete evaluations used across the claims -/

theorem ratio_abxc_byca : (compare_strings "abxc" "byca").2 = 1 / 4 := by
  have hne : ("abxc" : String) ≠ "byca" := by decide
  have h : blocksSize (getMatchingBlocks "abxc".data "byca".data) = 1 := by decide
  have hl : "abxc".data.length = 4 := by decide
  have hl2 : "byca".data.length = 4 := by decide
  simp [compare_strings, hne, ratioOf, h, hl, hl2]
  norm_num [round2, roundHalfEven]

theorem ratio_byca_abxc : (compare_strings "byca" "abxc").2 = 1 / 2 := by
  have hne : ("byca" : String) ≠ "abxc" := by decide
  have h : blocksSize (getMatchingBlocks "byca".data "abxc".data) = 2 := by decide
  have hl : "byca".data.length = 4 := by decide
  have hl2 : "abxc".data.length = 4 := by decide
  simp [compare_strings, hne, ratioOf, h, hl, hl2]
  norm_num [round2, roundHalfEven]

theorem ratio_a_b : (compare_strings "a" "b").2 = 0 := by
  have hne : ("a" : String) ≠ "b" := by decide
  have h : blocksSize (getMatchingBlocks "a".data "b".data) = 0 := by decide
  have hl : "a".data.length = 1 := by decide
  have hl2 : "b".data.length = 1 := by decide
  simp [compare_strings, hne, ratioOf, h, hl, hl2]
  norm_num [round2, roundHalfEven]

theorem opcodes_abc_empty :
    (compare_strings "abc" "").1 = [(DiffTag.delete, 0, 3, 0, 0)] := by
  have hne : ("abc" : String) ≠ "" := by decide
  have h : getOpcodes "abc".data "".data = [(DiffTag.delete, 0, 3, 0, 0)] := by
    decide
  simp [compare_strings, hne, h]

theorem ratio_abc_empty : (compare_strings "abc" "").2 = 0 := by
  have hne : ("abc" : String) ≠ "" := by decide
  have h : blocksSize (getMatchingBlocks "abc".data "".data) = 0 := by decide
  have hl : "abc".data.length = 3 := by decide
  have hl2 : "".data.length = 0 := by decide
  simp [compare_strings, hne, ratioOf, h, hl, hl2]
  norm_num [round2, roundHalfEven]

/-! ## Claims C1 and C4 -/

/-- Claim C1, counterexample: aligning a text with itself takes the fast
path, which returns ratio `1.0` together with an **empty** opcode list —
not a list holding one full-length `equal` opcode as the claim states.
Shown here at the concrete input `A = "ab"`. -/
theorem c1_counterexample :
    compare_strings "ab" "ab" = ([], 1) ∧
      (compare_strings "ab" "ab").1 ≠ [(DiffTag.equal, 0, 2, 0, 2)] := by
  constructor <;> simp [compare_strings]

/-- Claim C1 (amended): for every text `A`, `_compare_strings(A, A)` returns
ratio `1.0` and the **empty** opcode list (the fast path skips the general
algorithm); this includes the empty/empty case. -/
theorem c1_self_compare (a : String) : compare_strings a a = ([], 1) := by
  simp [compare_strings]

/-- Claim C4: once a run has completed, calling `run` again on the
`pandas_text_comparer` revision is a no-op that leaves the state (and hence
`self.result`) unchanged, and on the `pandas-text-comparer` revision it
fails with the `"The comparer has already been run"` error; in neither case
is the result recomputed or changed. -/
theorem c4_run_once :
    (∀ (s : ComparerStateU) (r : List (ℚ × String × String)),
        s.result = some r → runU s = s) ∧
      ∀ s : ComparerStateH, s.df = none →
        runH s = Except.error "The comparer has already been run" := by
  constructor
  · intro s r h
    simp [runU, h]
  · intro s h
    simp [runH, h]

/-- Witness for C4 at concrete states that have already been run. -/
theorem c4_run_once_witness :
    runU ⟨none, 0, some []⟩ = ⟨none, 0, some []⟩ ∧
      runH ⟨none, 0, some []⟩ = Except.error "The comparer has already been run" :=
  ⟨c4_run_once.1 ⟨none, 0, some []⟩ [] rfl, c4_run_once.2 ⟨none, 0, some []⟩ rfl⟩

/-! ## Round-trip of highlighting (claim C2) -/

theorem stripTags_insertOne (l : List String) (i : Nat) (x : String)
    (h : isTag x = true) :
    stripTags (l.take i ++ [x] ++ l.drop i) = stripTags l := by
  have hx : List.filter (fun s => !isTag s) [x] = [] := by simp [h]
  rw [stripTags, List.filter_append, List.filter_append, hx, List.append_nil,
    ← List.filter_append, List.take_append_drop]
  rfl

theorem stripTags_insert2 (l : List String) (lo hi : Nat) (tag : String)
    (h : isTag tag = true) :
    stripTags (insert2 l lo hi tag) = stripTags l := by
  unfold insert2
  rw [stripTags_insertOne _ _ _ h, stripTags_insertOne _ _ _ (by decide)]

theorem stripTags_highlightStep (p : List String × List String) (op : OpCode) :
    stripTags (highlightStep p op).1 = stripTags p.1 ∧
      stripTags (highlightStep p op).2 = stripTags p.2 := by
  obtain ⟨tag, a1, a2, b1, b2⟩ := op
  cases tag <;>
    simp [highlightStep, difftag_styles, stripTags_insert2, isTag, isOpenTag]

theorem stripTags_foldl (ops : List OpCode) (p : List String × List String) :
    stripTags (ops.foldl highlightStep p).1 = stripTags p.1 ∧
      stripTags (ops.foldl highlightStep p).2 = stripTags p.2 := by
  induction ops generalizing p with
  | nil => exact ⟨rfl, rfl⟩
  | cons op rest ih =>
    rw [List.foldl_cons]
    exact ⟨((ih _).1).trans (stripTags_highlightStep p op).1,
      ((ih _).2).trans (stripTags_highlightStep p op).2⟩

theorem singleton_beq_false {t : String} (h : t.length ≠ 1) (c : Char) :
    (String.singleton c == t) = false := by
  rw [beq_eq_false_iff_ne]
  intro he
  exact h (he ▸ rfl)

theorem isTag_singleton (c : Char) : isTag (String.singleton c) = false := by
  simp [isTag, isOpenTag,
    singleton_beq_false (t := openChg) (by decide) c,
    singleton_beq_false (t := openSub) (by decide) c,
    singleton_beq_false (t := openAdd) (by decide) c,
    singleton_beq_false (t := closeSpan) (by decide) c]

theorem stripTags_charsOf (s : String) : stripTags (charsOf s) = charsOf s := by
  rw [stripTags, List.filter_eq_self]
  intro x hx
  obtain ⟨c, _, rfl⟩ := List.mem_map.mp hx
  simp [isTag_singleton]

theorem flatten_map_single (l : List Char) : (l.map fun c => [c]).flatten = l := by
  induction l with
  | nil => rfl
  | cons c cs ih => simp [ih]

theorem strJoin_charsOf (s : String) : strJoin (charsOf s) = s := by
  simp only [strJoin, charsOf, List.map_map]
  have h : (String.data ∘ String.singleton) = fun c => [c] := rfl
  rw [h, flatten_map_single]

/-- Claim C2: the strings returned by `_highlight_changes` are the joins of
the two piece lists, and removing every inserted markup string (the three
open tags and the close tag) from those piece lists and joining gives back
exactly the original `A` and `B`, for every opcode list (in particular any
opcode list produced by alignment).  The embedding processes the opcodes in
reverse order of occurrence exactly as the source loop does. -/
theorem c2_highlight_roundtrip (a b : String) (ops : List OpCode) :
    highlight_changes a b ops =
        (strJoin (highlightPieces a b ops).1, strJoin (highlightPieces a b ops).2) ∧
      strJoin (stripTags (highlightPieces a b ops).1) = a ∧
      strJoin (stripTags (highlightPieces a b ops).2) = b := by
  refine ⟨rfl, ?_, ?_⟩
  · rw [highlightPieces, (stripTags_foldl ops.reverse (charsOf a, charsOf b)).1,
      stripTags_charsOf, strJoin_charsOf]
  · rw [highlightPieces, (stripTags_foldl ops.reverse (charsOf a, charsOf b)).2,
      stripTags_charsOf, strJoin_charsOf]

/-! ## Balanced markup (claim C3) -/

theorem highlightStep_eq (p : List String × List String) (op : OpCode) :
    highlightStep p op = (stepA p.1 op, stepB p.2 op) := by
  obtain ⟨tag, a1, a2, b1, b2⟩ := op
  cases tag <;> rfl

theorem foldl_highlight_split (l : List OpCode) (x y : List String) :
    l.foldl highlightStep (x, y) = (l.foldl stepA x, l.foldl stepB y) := by
  induction l generalizing x y with
  | nil => rfl
  | cons op rest ih =>
    rw [List.foldl_cons, List.foldl_cons, List.foldl_cons, highlightStep_eq]
    exact ih _ _

theorem foldl_reverse_stepA (ops : List OpCode) (l : List String) :
    ops.reverse.foldl stepA l = gFold (ops.map projA) l := by
  rw [List.foldl_reverse, gFold, List.foldr_map]
  rfl

theorem foldl_reverse_stepB (ops : List OpCode) (l : List String) :
    ops.reverse.foldl stepB l = gFold (ops.map projB) l := by
  rw [List.foldl_reverse, gFold, List.foldr_map]
  rfl

theorem highlightPieces_eq (a b : String) (ops : List OpCode) :
    highlightPieces a b ops =
      (gFold (ops.map projA) (charsOf a), gFold (ops.map projB) (charsOf b)) := by
  rw [highlightPieces, foldl_highlight_split, foldl_reverse_stepA, foldl_reverse_stepB]

theorem chainOps_projA (ops : List OpCode) (p q n m : Nat)
    (h : chainOps ops p q n m = true) : gChain (ops.map projA) p n = true := by
  induction ops generalizing p q with
  | nil =>
    simp only [chainOps, Bool.and_eq_true, beq_iff_eq] at h
    simp [gChain, h.1]
  | cons op rest ih =>
    obtain ⟨tag, a1, a2, b1, b2⟩ := op
    simp only [chainOps, Bool.and_eq_true, beq_iff_eq, decide_eq_true_eq] at h
    obtain ⟨⟨⟨⟨h1, h2⟩, h3⟩, h4⟩, h5⟩ := h
    simp only [List.map_cons, gChain, projA, Bool.and_eq_true, beq_iff_eq,
      decide_eq_true_eq]
    exact ⟨⟨h1, h2⟩, ih a2 b2 h5⟩

theorem chainOps_projB (ops : List OpCode) (p q n m : Nat)
    (h : chainOps ops p q n m = true) : gChain (ops.map projB) q m = true := by
  induction ops generalizing p q with
  | nil =>
    simp only [chainOps, Bool.and_eq_true, beq_iff_eq] at h
    simp [gChain, h.2]
  | cons op rest ih =>
    obtain ⟨tag, a1, a2, b1, b2⟩ := op
    simp only [chainOps, Bool.and_eq_true, beq_iff_eq, decide_eq_true_eq] at h
    obtain ⟨⟨⟨⟨h1, h2⟩, h3⟩, h4⟩, h5⟩ := h
    simp only [List.map_cons, gChain, projB, Bool.and_eq_true, beq_iff_eq,
      decide_eq_true_eq]
    exact ⟨⟨h3, h4⟩, ih a2 b2 h5⟩

theorem gChain_le (gops : List GOp) (p n : Nat) (h : gChain gops p n = true) :
    p ≤ n := by
  induction gops generalizing p with
  | nil =>
    simp only [gChain, beq_iff_eq] at h
    omega
  | cons g rest ih =>
    obtain ⟨st, lo, hi⟩ := g
    simp only [gChain, Bool.and_eq_true, beq_iff_eq, decide_eq_true_eq] at h
    obtain ⟨⟨h1, h2⟩, h3⟩ := h
    have := ih hi h3
    omega

theorem take_split {α : Type} (l : List α) (lo hi : Nat) (h : lo ≤ hi) :
    l.take hi = l.take lo ++ (l.take hi).drop lo := by
  conv_lhs => rw [← List.take_append_drop lo (l.take hi)]
  rw [List.take_take, Nat.min_eq_left h]

theorem insert2_front (chars T : List String) (lo hi : Nat) (s : String)
    (hlo : lo ≤ hi) (hhi : hi ≤ chars.length) :
    insert2 (chars.take hi ++ T) lo hi s =
      chars.take lo ++ (s :: ((chars.take hi).drop lo ++ [closeSpan])) ++ T := by
  have hlen : (chars.take hi).length = hi := List.length_take_of_le hhi
  have h1 : (chars.take hi ++ T).take hi = chars.take hi := by
    rw [List.take_append_eq_append_take, hlen, Nat.sub_self, List.take_zero,
      List.append_nil, List.take_take, Nat.min_self]
  have h2 : (chars.take hi ++ T).drop hi = T := by
    rw [List.drop_append_eq_append_drop, hlen, Nat.sub_self, List.drop_zero,
      List.drop_eq_nil_of_le (le_of_eq hlen), List.nil_append]
  have h3 : (chars.take hi ++ ([closeSpan] ++ T)).take lo = chars.take lo := by
    rw [List.take_append_eq_append_take, hlen, Nat.sub_eq_zero_of_le hlo,
      List.take_zero, List.append_nil, List.take_take, Nat.min_eq_left hlo]
  have h4 : (chars.take hi ++ ([closeSpan] ++ T)).drop lo =
      (chars.take hi).drop lo ++ ([closeSpan] ++ T) := by
    rw [List.drop_append_eq_append_drop, hlen, Nat.sub_eq_zero_of_le hlo,
      List.drop_zero]
  unfold insert2
  rw [h1, h2]
  simp only [List.append_assoc]
  rw [h3, h4]
  simp [List.append_assoc]

theorem gFold_chain_eq (chars : List String) (gops : List GOp) (p : Nat)
    (h : gChain gops p chars.length = true) :
    gFold gops chars = chars.take p ++ flatSegs chars gops := by
  induction gops generalizing p with
  | nil =>
    simp only [gChain, beq_iff_eq] at h
    simp [gFold, flatSegs, h]
  | cons g rest ih =>
    obtain ⟨st, lo, hi⟩ := g
    simp only [gChain, Bool.and_eq_true, beq_iff_eq, decide_eq_true_eq] at h
    obtain ⟨⟨hp, hlh⟩, hrest⟩ := h
    subst hp
    have hhi : hi ≤ chars.length := gChain_le rest hi _ hrest
    have hfold : gFold ((st, p, hi) :: rest) chars =
        gStep (gFold rest chars) (st, p, hi) := rfl
    rw [hfold, ih hi hrest]
    cases st with
    | none =>
      simp only [gStep, flatSegs, renderSeg]
      conv_lhs => rw [take_split chars p hi hlh]
      simp [List.append_assoc]
    | some s =>
      simp only [gStep, flatSegs, renderSeg]
      rw [insert2_front chars (flatSegs chars rest) p hi s hlh hhi]
      simp [List.append_assoc]

theorem spanScan_append (l1 l2 : List String) (st : Bool) :
    spanScan (l1 ++ l2) st =
      (spanScan l1 st).bind fun st2 => spanScan l2 st2 := by
  induction l1 generalizing st with
  | nil => simp [spanScan]
  | cons s rest ih =>
    simp only [List.cons_append, spanScan]
    split_ifs <;> simp [ih]

theorem spanScan_plain (l : List String) (st : Bool)
    (h : ∀ x ∈ l, isTag x = false) : spanScan l st = some st := by
  induction l with
  | nil => rfl
  | cons s rest ih =>
    have hs := h s (List.mem_cons_self s rest)
    simp only [isTag, Bool.or_eq_false_iff] at hs
    simp only [spanScan, hs.1, hs.2, if_false, Bool.false_eq_true]
    exact ih fun x hx => h x (List.mem_cons_of_mem s hx)

theorem spanScan_renderSeg (chars : List String) (g : GOp)
    (hchars : ∀ x ∈ chars, isTag x = false)
    (hstyle : ∀ s, g.1 = some s → isOpenTag s = true) :
    spanScan (renderSeg chars g) false = some false := by
  obtain ⟨st, lo, hi⟩ := g
  have hslice : ∀ x ∈ (chars.take hi).drop lo, isTag x = false := fun x hx =>
    hchars x (List.mem_of_mem_take (List.mem_of_mem_drop hx))
  cases st with
  | none => exact spanScan_plain _ _ hslice
  | some s =>
    have hs : isOpenTag s = true := hstyle s rfl
    show spanScan (s :: ((chars.take hi).drop lo ++ [closeSpan])) false = some false
    simp only [spanScan, hs, if_true, Bool.false_eq_true, if_false]
    rw [spanScan_append, spanScan_plain _ _ hslice]
    have hc1 : isOpenTag closeSpan = false := by decide
    have hc2 : (closeSpan == closeSpan) = true := by decide
    simp [spanScan, hc1, hc2]

theorem spanScan_flatSegs (chars : List String) (gops : List GOp)
    (hchars : ∀ x ∈ chars, isTag x = false)
    (hstyles : ∀ g ∈ gops, ∀ s, g.1 = some s → isOpenTag s = true) :
    spanScan (flatSegs chars gops) false = some false := by
  induction gops with
  | nil => rfl
  | cons g rest ih =>
    rw [flatSegs, spanScan_append,
      spanScan_renderSeg chars g hchars (hstyles g (List.mem_cons_self g rest))]
    exact ih fun g2 hg2 => hstyles g2 (List.mem_cons_of_mem g hg2)

theorem isOpenTag_of_style (t : DiffTag) (s : String)
    (h : difftag_styles t = some s) : isOpenTag s = true := by
  cases t <;> simp only [difftag_styles, Option.some.injEq, reduceCtorEq] at h <;>
    subst h <;> decide

theorem isTag_charsOf (a : String) : ∀ x ∈ charsOf a, isTag x = false := by
  intro x hx
  obtain ⟨c, _, rfl⟩ := List.mem_map.mp hx
  exact isTag_singleton c

theorem charsOf_length (a : String) : (charsOf a).length = a.data.length := by
  simp [charsOf]

theorem styles_of_map_projA (ops : List OpCode) :
    ∀ g ∈ ops.map projA, ∀ s, g.1 = some s → isOpenTag s = true := by
  intro g hg s hs
  obtain ⟨op, _, rfl⟩ := List.mem_map.mp hg
  exact isOpenTag_of_style op.1 s hs

theorem styles_of_map_projB (ops : List OpCode) :
    ∀ g ∈ ops.map projB, ∀ s, g.1 = some s → isOpenTag s = true := by
  intro g hg s hs
  obtain ⟨op, _, rfl⟩ := List.mem_map.mp hg
  exact isOpenTag_of_style op.1 s hs

/-- Claim C3: for every pair of texts and every valid opcode list
(contiguous, non-overlapping spans covering both texts, including the
all-equal and all-non-equal extremes and zero-length spans on one side),
both piece lists built by `_highlight_changes` carry balanced markup: every
inserted open tag is matched by a close tag, properly nested and never
interleaved (`spanScan` returns to the outside state).  The embedding is a
total function — Python's list slicing in the source likewise cannot raise
for any offsets. -/
theorem c3_highlight_wellNested (a b : String) (ops : List OpCode)
    (h : validOpcodes a b ops) :
    wellNested (highlightPieces a b ops).1 ∧
      wellNested (highlightPieces a b ops).2 := by
  have hA : gChain (ops.map projA) 0 (charsOf a).length = true := by
    rw [charsOf_length]
    exact chainOps_projA ops 0 0 _ _ h
  have hB : gChain (ops.map projB) 0 (charsOf b).length = true := by
    rw [charsOf_length]
    exact chainOps_projB ops 0 0 _ _ h
  rw [highlightPieces_eq]
  constructor
  · show spanScan (gFold (ops.map projA) (charsOf a)) false = some false
    rw [gFold_chain_eq _ _ 0 hA, List.take_zero, List.nil_append]
    exact spanScan_flatSegs _ _ (isTag_charsOf a) (styles_of_map_projA ops)
  · show spanScan (gFold (ops.map projB) (charsOf b)) false = some false
    rw [gFold_chain_eq _ _ 0 hB, List.take_zero, List.nil_append]
    exact spanScan_flatSegs _ _ (isTag_charsOf b) (styles_of_map_projB ops)

/-- Witness for C3 at a concrete text pair and valid opcode list. -/
theorem c3_witness :
    validOpcodes "ab" "b"
        [(DiffTag.delete, 0, 1, 0, 0), (DiffTag.equal, 1, 2, 0, 1)] ∧
      wellNested (highlightPieces "ab" "b"
          [(DiffTag.delete, 0, 1, 0, 0), (DiffTag.equal, 1, 2, 0, 1)]).1 ∧
      wellNested (highlightPieces "ab" "b"
          [(DiffTag.delete, 0, 1, 0, 0), (DiffTag.equal, 1, 2, 0, 1)]).2 := by
  have h : validOpcodes "ab" "b"
      [(DiffTag.delete, 0, 1, 0, 0), (DiffTag.equal, 1, 2, 0, 1)] := by
    unfold validOpcodes
    decide
  exact ⟨h, c3_highlight_wellNested _ _ _ h⟩

/-! ## Threshold gating of highlighting (claim C5) -/

theorem highlight_changes_nil (a b : String) : highlight_changes a b [] = (a, b) := by
  simp [highlight_changes, highlightPieces, strJoin_charsOf]

/-- Claim C5, counterexample: with `min_ratio_for_highlight = 0` and the
pair `("a", "a")` the ratio `1.0` reaches the threshold (inclusive), yet
the returned texts are exactly the unmodified inputs and carry no markup —
the highlighting branch runs but inserts nothing because the fast path
yields no non-`equal` opcode.  So "ratio at or above the threshold implies
the outputs carry highlight markup" is false on the code. -/
theorem c5_counterexample :
    process_row 0 "a" "a" = (1, "a", "a") ∧
      (0 : ℚ) ≤ (compare_strings "a" "a").2 ∧
      hasMarkup (process_row 0 "a" "a").2.1 = false ∧
      hasMarkup (process_row 0 "a" "a").2.2 = false := by
  have hc : compare_strings "a" "a" = ([], 1) := by simp [compare_strings]
  have hle : (0 : ℚ) ≤ 1 := by norm_num
  have hp : process_row 0 "a" "a" = (1, "a", "a") := by
    simp only [process_row, hc]
    simp [hle, highlight_changes_nil]
  refine ⟨hp, ?_, ?_, ?_⟩
  · rw [hc]
    exact hle
  · rw [hp]
    decide
  · rw [hp]
    decide

/-- Claim C5 (amended): per processed row, if the computed ratio is at or
above `min_ratio_for_highlight` (inclusive comparison) the returned texts
are exactly the output of `_highlight_changes` on the computed opcodes
(which carries markup for every non-`equal` opcode, and equals the inputs
when there is none); if the ratio is strictly below the threshold the
returned texts are exactly the unmodified inputs. -/
theorem c5_threshold (m : ℚ) (a b : String) :
    (m ≤ (compare_strings a b).2 →
      process_row m a b =
        ((compare_strings a b).2,
          highlight_changes a b (compare_strings a b).1)) ∧
      ((compare_strings a b).2 < m →
        process_row m a b = ((compare_strings a b).2, a, b)) := by
  constructor
  · intro h
    simp only [process_row]
    rw [if_pos h]
  · intro h
    simp only [process_row]
    rw [if_neg (not_le.mpr h)]

/-- Witness for C5: the highlighted branch at threshold `0` on `("a", "a")`
and the pass-through branch at threshold `1` on `("a", "b")`. -/
theorem c5_threshold_witness :
    process_row 0 "a" "a" =
        ((compare_strings "a" "a").2,
          highlight_changes "a" "a" (compare_strings "a" "a").1) ∧
      process_row 1 "a" "b" = ((compare_strings "a" "b").2, "a", "b") := by
  constructor
  · refine (c5_threshold 0 "a" "a").1 ?_
    have hc : compare_strings "a" "a" = ([], 1) := by simp [compare_strings]
    rw [hc]
    norm_num
  · refine (c5_threshold 1 "a" "b").2 ?_
    rw [ratio_a_b]
    norm_num

/-! ## Symmetry of the longest matching block; asymmetry of the ratio
(claim C8) -/

theorem foldl_max_le_iff (l : List Nat) (acc m : Nat) :
    l.foldl max acc ≤ m ↔ acc ≤ m ∧ ∀ x ∈ l, x ≤ m := by
  induction l generalizing acc with
  | nil => simp
  | cons x rest ih =>
    rw [List.foldl_cons, ih]
    simp only [Nat.max_le, List.mem_cons]
    constructor
    · rintro ⟨⟨h1, h2⟩, h3⟩
      exact ⟨h1, fun y hy => hy.elim (fun he => he ▸ h2) (h3 y)⟩
    · rintro ⟨h1, h2⟩
      exact ⟨⟨h1, h2 x (Or.inl rfl)⟩, fun y hy => h2 y (Or.inr hy)⟩

theorem listMax_le_iff (l : List Nat) (m : Nat) :
    listMax l ≤ m ↔ ∀ x ∈ l, x ≤ m := by
  rw [listMax, foldl_max_le_iff]
  simp

theorem le_listMax_of_mem {l : List Nat} {x : Nat} (h : x ∈ l) : x ≤ listMax l :=
  (listMax_le_iff l (listMax l)).mp le_rfl x h

theorem foldl_max_mem (l : List Nat) (acc : Nat) :
    l.foldl max acc = acc ∨ l.foldl max acc ∈ l := by
  induction l generalizing acc with
  | nil => exact Or.inl rfl
  | cons x rest ih =>
    rw [List.foldl_cons]
    rcases ih (max acc x) with h | h
    · rw [h]
      rcases max_choice acc x with h2 | h2
      · exact Or.inl h2
      · right
        rw [h2]
        exact List.mem_cons_self x rest
    · exact Or.inr (List.mem_cons_of_mem x h)

theorem listMax_mem_of_ne_zero {l : List Nat} (h : listMax l ≠ 0) :
    listMax l ∈ l := by
  rcases foldl_max_mem l 0 with h2 | h2
  · exact absurd h2 h
  · exact h2

theorem find_longest_match_k (a b : List Char) (alo ahi blo bhi : Nat) :
    (find_longest_match a b alo ahi blo bhi).2.2 =
      bestMatchLen a b alo ahi blo bhi := by
  unfold find_longest_match
  cases hf : (matchCands alo ahi blo bhi).find?
      (fun ij => extLen a b ahi bhi ij.1 ij.2 == bestMatchLen a b alo ahi blo bhi) with
  | some ij => simp [hf]
  | none =>
    simp only [hf]
    rw [bestMatchLen]
    by_contra hne
    have hb : listMax ((matchCands alo ahi blo bhi).map fun ij =>
        extLen a b ahi bhi ij.1 ij.2) ≠ 0 := fun h0 => hne h0.symm
    have hmem := listMax_mem_of_ne_zero hb
    obtain ⟨ij, hij, hext⟩ := List.mem_map.mp hmem
    have hnone := List.find?_eq_none.mp hf ij hij
    apply hnone
    simp only [beq_iff_eq, bestMatchLen]
    exact hext

theorem commonPrefixLen_comm (xs ys : List Char) :
    commonPrefixLen xs ys = commonPrefixLen ys xs := by
  induction xs generalizing ys with
  | nil => cases ys <;> rfl
  | cons c cs ih =>
    cases ys with
    | nil => rfl
    | cons d ds =>
      simp only [commonPrefixLen]
      by_cases h : c = d
      · subst h
        simp [ih]
      · rw [if_neg h, if_neg (Ne.symm h)]

theorem extLen_comm (a b : List Char) (ahi bhi i j : Nat) :
    extLen a b ahi bhi i j = extLen b a bhi ahi j i := by
  unfold extLen
  exact commonPrefixLen_comm _ _

theorem mem_matchCands {alo ahi blo bhi i j : Nat} :
    (i, j) ∈ matchCands alo ahi blo bhi ↔
      (alo ≤ i ∧ i < ahi) ∧ blo ≤ j ∧ j < bhi := by
  simp only [matchCands, List.mem_flatMap, List.mem_map, List.mem_range'_1,
    Prod.mk.injEq]
  constructor
  · rintro ⟨i2, hi2, j2, hj2, rfl, rfl⟩
    exact ⟨⟨hi2.1, by omega⟩, hj2.1, by omega⟩
  · rintro ⟨⟨h1, h2⟩, h3, h4⟩
    exact ⟨i, ⟨h1, by omega⟩, j, ⟨h3, by omega⟩, rfl, rfl⟩

theorem bestMatchLen_le_comm (a b : List Char) :
    bestMatchLen a b 0 a.length 0 b.length ≤
      bestMatchLen b a 0 b.length 0 a.length := by
  rw [bestMatchLen, listMax_le_iff]
  intro x hx
  obtain ⟨⟨i, j⟩, hij, rfl⟩ := List.mem_map.mp hx
  have hmem := mem_matchCands.mp hij
  have h2 : (j, i) ∈ matchCands 0 b.length 0 a.length :=
    mem_matchCands.mpr ⟨hmem.2, hmem.1⟩
  rw [extLen_comm]
  exact le_listMax_of_mem (List.mem_map.mpr ⟨(j, i), h2, rfl⟩)

/-- Claim C8, counterexample: the similarity ratio returned by
`_compare_strings` is **not** symmetric.  For `A = "abxc"`, `B = "byca"` the
greedy decomposition keeps only the block `"a"` (`ratio 0.25`), while in the
swapped order it keeps `"b"` and then also `"c"` (`ratio 0.5`): the
earliest-in-`a` tie-break picks crossing blocks whose residues differ. -/
theorem c8_counterexample :
    (compare_strings "abxc" "byca").2 ≠ (compare_strings "byca" "abxc").2 := by
  rw [ratio_abxc_byca, ratio_byca_abxc]
  norm_num

/-- Claim C8 (amended): what is symmetric in the alignment is the length of
the longest matching block (`find_longest_match` over the full ranges finds
blocks of equal length in either order); the ratio itself differs in general
because the tie-break can choose crossing blocks that decompose the
remainder differently. -/
theorem c8_maxMatchLen_symm (a b : String) : maxMatchLen a b = maxMatchLen b a := by
  rw [maxMatchLen, maxMatchLen, find_longest_match_k, find_longest_match_k]
  exact Nat.le_antisymm (bestMatchLen_le_comm a.data b.data)
    (bestMatchLen_le_comm b.data a.data)

/-! ## Zero ratio and unmatched texts (claim C9) -/

theorem blocksSize_append (l1 l2 : List (Nat × Nat × Nat)) :
    blocksSize (l1 ++ l2) = blocksSize l1 + blocksSize l2 := by
  induction l1 with
  | nil => simp [blocksSize]
  | cons t rest ih =>
    show t.2.2 + blocksSize (rest ++ l2) = t.2.2 + blocksSize rest + blocksSize l2
    rw [ih]
    omega

theorem blocksSize_mergeAdjAux (l : List (Nat × Nat × Nat)) (t : Nat × Nat × Nat) :
    blocksSize (mergeAdjAux t l) = t.2.2 + blocksSize l := by
  induction l generalizing t with
  | nil =>
    by_cases h : t.2.2 ≠ 0
    · simp [mergeAdjAux, h, blocksSize]
    · simp [mergeAdjAux, h, blocksSize]
      omega
  | cons u rest ih =>
    rw [mergeAdjAux]
    by_cases h : t.1 + t.2.2 = u.1 ∧ t.2.1 + t.2.2 = u.2.1
    · rw [if_pos h, ih]
      simp [blocksSize]
      omega
    · rw [if_neg h, blocksSize_append, ih]
      by_cases h2 : t.2.2 ≠ 0
      · simp [h2, blocksSize]
      · simp [h2, blocksSize]
        omega

theorem blocksSize_getMatchingBlocks (a b : List Char) :
    blocksSize (getMatchingBlocks a b) =
      blocksSize (matchingBlocksAux a b (a.length + b.length + 1)
        0 a.length 0 b.length) := by
  rw [getMatchingBlocks, blocksSize_append, blocksSize_mergeAdjAux]
  simp [blocksSize]

theorem blocksSize_aux_zero_iff (a b : List Char) :
    blocksSize (matchingBlocksAux a b (a.length + b.length + 1)
        0 a.length 0 b.length) = 0 ↔
      (find_longest_match a b 0 a.length 0 b.length).2.2 = 0 := by
  by_cases hk : (find_longest_match a b 0 a.length 0 b.length).2.2 = 0
  · simp [matchingBlocksAux, hk, blocksSize]
  · simp only [matchingBlocksAux, hk, if_false, iff_false]
    rw [blocksSize_append, blocksSize_append]
    simp only [blocksSize]
    omega

theorem extLen_full_eq_zero_iff (a b : List Char) (i j : Nat)
    (hi : i < a.length) (hj : j < b.length) :
    extLen a b a.length b.length i j = 0 ↔ ¬ a[i] = b[j] := by
  have h1 : a.drop i = a[i] :: a.drop (i + 1) := List.drop_eq_getElem_cons hi
  have h2 : b.drop j = b[j] :: b.drop (j + 1) := List.drop_eq_getElem_cons hj
  have h3 : a.length - i = (a.length - i - 1) + 1 := by omega
  have h4 : b.length - j = (b.length - j - 1) + 1 := by omega
  rw [extLen, h1, h2, h3, h4, List.take_succ_cons, List.take_succ_cons]
  by_cases h : a[i] = b[j]
  · simp [commonPrefixLen, h]
  · simp [commonPrefixLen, h]

theorem bestMatchLen_eq_zero_iff (a b : List Char) :
    bestMatchLen a b 0 a.length 0 b.length = 0 ↔ ¬ sharesChar a b := by
  rw [bestMatchLen]
  constructor
  · intro h0 hs
    obtain ⟨c, hca, hcb⟩ := hs
    obtain ⟨i, hi, hia⟩ := List.mem_iff_getElem.mp hca
    obtain ⟨j, hj, hjb⟩ := List.mem_iff_getElem.mp hcb
    have hij : (i, j) ∈ matchCands 0 a.length 0 b.length :=
      mem_matchCands.mpr ⟨⟨Nat.zero_le i, hi⟩, Nat.zero_le j, hj⟩
    have hmem : extLen a b a.length b.length i j ∈
        (matchCands 0 a.length 0 b.length).map fun ij =>
          extLen a b a.length b.length ij.1 ij.2 :=
      List.mem_map.mpr ⟨(i, j), hij, rfl⟩
    have hle := (listMax_le_iff _ 0).mp (le_of_eq h0) _ hmem
    have hz : extLen a b a.length b.length i j = 0 := Nat.le_zero.mp hle
    exact (extLen_full_eq_zero_iff a b i j hi hj).mp hz (hia.trans hjb.symm)
  · intro hns
    have hle : listMax ((matchCands 0 a.length 0 b.length).map fun ij =>
        extLen a b a.length b.length ij.1 ij.2) ≤ 0 := by
      rw [listMax_le_iff]
      intro x hx
      obtain ⟨⟨i, j⟩, hij, rfl⟩ := List.mem_map.mp hx
      obtain ⟨⟨_, hi⟩, _, hj⟩ := mem_matchCands.mp hij
      by_contra hpos
      have hne : a[i] = b[j] := by
        by_contra hne2
        exact hpos (Nat.le_zero.mpr
          ((extLen_full_eq_zero_iff a b i j hi hj).mpr hne2))
      exact hns ⟨a[i], List.getElem_mem hi, hne ▸ List.getElem_mem hj⟩
    exact Nat.le_zero.mp hle

theorem matches_zero_iff (a b : List Char) :
    blocksSize (getMatchingBlocks a b) = 0 ↔ ¬ sharesChar a b := by
  rw [blocksSize_getMatchingBlocks, blocksSize_aux_zero_iff,
    find_longest_match_k, bestMatchLen_eq_zero_iff]

theorem ratioOf_eq_zero_iff (a b : List Char)
    (hT : a.length + b.length ≠ 0) :
    ratioOf a b = 0 ↔ ¬ sharesChar a b := by
  rw [ratioOf, if_neg hT, div_eq_zero_iff]
  constructor
  · rintro (h | h)
    · have h2 : (blocksSize (getMatchingBlocks a b) : ℚ) = 0 := by
        have := mul_eq_zero.mp h
        rcases this with h3 | h3
        · norm_num at h3
        · exact h3
      exact (matches_zero_iff a b).mp (by exact_mod_cast h2)
    · exfalso
      apply hT
      exact_mod_cast h
  · intro h
    left
    have hM : blocksSize (getMatchingBlocks a b) = 0 := (matches_zero_iff a b).mpr h
    rw [hM]
    norm_num

theorem round2_zero : round2 0 = 0 := by
  norm_num [round2, roundHalfEven]

/-- Claim C9, counterexample: for `A = B = ""` no characters of the two
texts match, yet `_compare_strings` returns ratio `1.0` through the
identical-texts fast path — so "the ratio equals 0.0 exactly when no
characters match" fails as stated. -/
theorem c9_counterexample :
    ¬ sharesChar "".data "".data ∧ (compare_strings "" "").2 ≠ 0 := by
  constructor
  · rintro ⟨c, hc, _⟩
    have he : "".data = ([] : List Char) := rfl
    rw [he] at hc
    exact (List.not_mem_nil c) hc
  · have h : compare_strings "" "" = ([], 1) := by simp [compare_strings]
    rw [h]
    norm_num

/-- Claim C9 (amended): `_compare_strings("abc", "")` returns ratio `0.0`
and a single `delete` op spanning all of `A` (from `(0,0)` to `(3,0)`); and
for every pair of distinct texts the unrounded ratio `2M/T` equals `0`
exactly when no characters of `A` and `B` match, so the returned (rounded)
ratio is `0.0` whenever no characters match.  (For identical texts —
including the empty/empty pair — the fast path returns `1.0` although no
characters match, which is what the counterexample exhibits.) -/
theorem c9_zero_ratio :
    compare_strings "abc" "" = ([(DiffTag.delete, 0, 3, 0, 0)], 0) ∧
      ∀ a b : String, a ≠ b →
        ((ratioOf a.data b.data = 0 ↔ ¬ sharesChar a.data b.data) ∧
          (¬ sharesChar a.data b.data → (compare_strings a b).2 = 0)) := by
  constructor
  · have h1 := opcodes_abc_empty
    have h2 := ratio_abc_empty
    exact Prod.ext h1 h2
  · intro a b hne
    have hT : a.data.length + b.data.length ≠ 0 := by
      intro h0
      apply hne
      apply String.ext
      have ha : a.data = [] := List.length_eq_zero.mp (by omega)
      have hb : b.data = [] := List.length_eq_zero.mp (by omega)
      rw [ha, hb]
    refine ⟨ratioOf_eq_zero_iff a.data b.data hT, fun hn => ?_⟩
    have hr : ratioOf a.data b.data = 0 := (ratioOf_eq_zero_iff _ _ hT).mpr hn
    simp only [compare_strings]
    rw [if_neg hne]
    simp only [hr]
    exact round2_zero

/-- Witness for C9 at the concrete distinct pair `("ab", "cd")`. -/
theorem c9_zero_ratio_witness :
    (ratioOf "ab".data "cd".data = 0 ↔ ¬ sharesChar "ab".data "cd".data) ∧
      (¬ sharesChar "ab".data "cd".data → (compare_strings "ab" "cd").2 = 0) :=
  c9_zero_ratio.2 "ab" "cd" (by decide)

/-! ## Projection join semantics (claim C7) -/

theorem mergeProj_keys_aux (rows : List (Nat × List (String × String)))
    (res : List ResultRow) :
    ((rows.filterMap fun kr =>
        (res.find? fun r => r.key == kr.1).map fun r => (kr.1, kr.2, r)).map
      Prod.fst) =
      (rows.map Prod.fst).filter fun k =>
        ((res.find? fun r => r.key == k).isSome : Bool) := by
  induction rows with
  | nil => rfl
  | cons kr rest ih =>
    cases hf : res.find? fun r => r.key == kr.1 with
    | none => simp [List.filterMap_cons, hf, ih]
    | some r => simp [List.filterMap_cons, hf, ih]

/-- Claim C7, counterexample: the `pandas_text_comparer` revision joins a
projection to the result with an **inner** merge, so a projection key absent
from the result (`1` below, with the result holding only key `0`) is
silently dropped and the call renders the remaining rows — it does not fail.
The rendered document equals the one obtained from the projection with the
unknown key already removed: a partial render. -/
theorem c7_counterexample :
    (mergeProj ⟨["extra"], [(0, [("extra", "e0")]), (1, [("extra", "e1")])]⟩
        [⟨0, 1, "x", "y"⟩]).map Prod.fst = [0] ∧
      get_html ⟨"ta", "tb", [⟨0, 1, "x", "y"⟩]⟩
          (some ⟨["extra"], [(0, [("extra", "e0")]), (1, [("extra", "e1")])]⟩)
          true none none =
        get_html ⟨"ta", "tb", [⟨0, 1, "x", "y"⟩]⟩
          (some ⟨["extra"], [(0, [("extra", "e0")])]⟩) true none none := by
  constructor
  · rfl
  · rfl

/-- Claim C7 (amended): in the `pandas_text_comparer` revision the
projection join is an inner merge — the merged row keys are exactly the
projection keys that occur in the result, in projection order, and
unmatched keys are dropped silently rather than failing the call; in the
older `pandas-text-comparer` revision the `.loc[list]`-based selection
raises `KeyError` as soon as one requested key is absent. -/
theorem c7_join_semantics :
    (∀ (p : Frame) (res : List ResultRow),
        (mergeProj p res).map Prod.fst =
          (p.rows.map Prod.fst).filter fun k =>
            ((res.find? fun r => r.key == k).isSome : Bool)) ∧
      ∀ (keys : List Nat) (rows : List (Nat × String)) (k : Nat), k ∈ keys →
        (rows.find? fun r => r.1 == k) = none →
        locSelect keys rows = Except.error "KeyError" := by
  constructor
  · intro p res
    exact mergeProj_keys_aux p.rows res
  · intro keys rows k hk hf
    rw [locSelect, if_neg]
    intro hall
    have h2 := List.all_eq_true.mp hall k hk
    rw [hf] at h2
    simp at h2

/-- Witness for C7: a selection of keys `[0, 1]` from rows holding only key
`0` errors out. -/
theorem c7_join_semantics_witness :
    locSelect [0, 1] ([(0, "r0")] : List (Nat × String)) =
      Except.error "KeyError" :=
  c7_join_semantics.2 [0, 1] [(0, "r0")] 1 (by decide) (by decide)

/-! ## Projection text columns are dropped before the merge (claim C10) -/

theorem not_mem_dropColumns (f : Frame) (cs : List String) (c : String)
    (hc : c ∈ cs) : c ∉ (dropColumns f cs).cols := by
  intro hmem
  have h2 := (List.mem_filter.mp hmem).2
  have h3 : cs.contains c = true := List.elem_eq_true_of_mem hc
  rw [h3] at h2
  simp at h2

theorem dropColumns_idem (f : Frame) (cs : List String) :
    dropColumns (dropColumns f cs) cs = dropColumns f cs := by
  unfold dropColumns
  congr 1
  · exact List.filter_eq_self.mpr fun x hx => (List.mem_filter.mp hx).2
  · rw [List.map_map]
    apply List.map_congr_left
    intro kr _
    exact Prod.ext rfl
      (List.filter_eq_self.mpr fun x hx => (List.mem_filter.mp hx).2)

theorem mergeProj_cells (p : Frame) (cs : List String) (res : List ResultRow)
    (r : RenderRow) (hr : r ∈ mergeProj (dropColumns p cs) res) :
    ∀ cv ∈ r.2.1, cv.1 ∉ cs := by
  rw [mergeProj] at hr
  obtain ⟨kr, hkr, hmap⟩ := List.mem_filterMap.mp hr
  cases hf : res.find? fun r2 => r2.key == kr.1 with
  | none =>
    rw [hf] at hmap
    simp at hmap
  | some r2 =>
    rw [hf] at hmap
    simp only [Option.map_some', Option.some.injEq] at hmap
    subst hmap
    intro cv hcv
    obtain ⟨kr0, _, rfl⟩ := List.mem_map.mp hkr
    have h2 := (List.mem_filter.mp hcv).2
    intro hmem
    have h3 : cs.contains cv.1 = true := List.elem_eq_true_of_mem hmem
    rw [h3] at h2
    simp at h2

/-- Claim C10: when `get_html` receives a caller-supplied projection, the
two original text columns are removed from it (silently, whether or not
they are present — `errors="ignore"`) before the merge with the comparison
result: the dropped projection never carries a column named like a text
column, the rendered document is insensitive to dropping them up front, and
no merged row retains a projection cell named like a text column — so the
highlighted text columns can never be shadowed. -/
theorem c10_projection_drop (v : ComparerView) (p : Frame) (showIndex : Bool)
    (maxRows : Option Nat) (sortArg : Option SortOrder) :
    (v.colA ∉ (dropColumns p [v.colA, v.colB]).cols ∧
        v.colB ∉ (dropColumns p [v.colA, v.colB]).cols) ∧
      get_html v (some p) showIndex maxRows sortArg =
        get_html v (some (dropColumns p [v.colA, v.colB])) showIndex maxRows
          sortArg ∧
      ∀ r ∈ mergeProj (dropColumns p [v.colA, v.colB]) v.result, ∀ cv ∈ r.2.1,
        cv.1 ≠ v.colA ∧ cv.1 ≠ v.colB := by
  refine ⟨⟨not_mem_dropColumns _ _ _ (by simp), not_mem_dropColumns _ _ _ (by simp)⟩,
    ?_, ?_⟩
  · simp only [get_html, Option.map_some']
    rw [dropColumns_idem]
  · intro r hr cv hcv
    have h := mergeProj_cells p [v.colA, v.colB] v.result r hr cv hcv
    constructor
    · intro he
      exact h (by rw [he]; simp)
    · intro he
      exact h (by rw [he]; simp)

/-- Witness for C10 at a concrete comparer view and projection whose
projection even contains a column named like the first text column. -/
theorem c10_projection_drop_witness :
    ("ta" ∉ (dropColumns ⟨["ta", "e"], [(0, [("ta", "shadow"), ("e", "w")])]⟩
          ["ta", "tb"]).cols ∧
        "tb" ∉ (dropColumns ⟨["ta", "e"], [(0, [("ta", "shadow"), ("e", "w")])]⟩
          ["ta", "tb"]).cols) ∧
      ("e", "w").1 ≠ "ta" ∧ ("e", "w").1 ≠ "tb" := by
  have h := c10_projection_drop ⟨"ta", "tb", [⟨0, 1, "x", "y"⟩]⟩
    ⟨["ta", "e"], [(0, [("ta", "shadow"), ("e", "w")])]⟩ true none none
  refine ⟨h.1, ?_⟩
  apply h.2.2 (0, [("e", "w")], ⟨0, 1, "x", "y"⟩) ?_ ("e", "w") ?_
  · rw [show mergeProj (dropColumns
        ⟨["ta", "e"], [(0, [("ta", "shadow"), ("e", "w")])]⟩ ["ta", "tb"])
        [⟨0, 1, "x", "y"⟩] = [(0, [("e", "w")], ⟨0, 1, "x", "y"⟩)] from rfl]
    exact List.mem_singleton.mpr rfl
  · exact List.mem_singleton.mpr rfl

end TextComparer
